import Mathlib

/-!
Shallow embedding of the BN254 (alt-bn128) crypto facade of
`src/soroban-sdk/src/crypto/bn254.rs`, together with models of the external
engine operations (pairing, subgroup checks, scalar-field arithmetic) that the
facade delegates to.  Definitions translated directly from the source keep the
source's names; definitions for behaviour that lives outside the provided
source are marked `Modelled from the spec:` in their doc comments.
-/

set_option maxRecDepth 200000

namespace BN254

/-- A byte value: an integer in `[0, 256)`. -/
abbrev Byte := Fin 256

/-- Big-endian interpretation of a byte string as a natural number
(`U256::from_be_bytes` semantics). -/
def beDecode : List Byte → ℕ
  | [] => 0
  | b :: t => b.val * 256 ^ t.length + beDecode t

/-- Big-endian encoding of a natural number into a fixed number of bytes,
most significant byte first, left zero-padded (`to_be_bytes` semantics). -/
def beEncode : ℕ → ℕ → List Byte
  | 0, _ => []
  | k + 1, v => ⟨v / 256 ^ k % 256, Nat.mod_lt _ (by norm_num)⟩ :: beEncode k (v % 256 ^ k)

theorem beEncode_length (k : ℕ) : ∀ v, (beEncode k v).length = k := by
  induction k with
  | zero => intro v; rfl
  | succ k ih => intro v; simp [beEncode, ih]

theorem beDecode_lt (l : List Byte) : beDecode l < 256 ^ l.length := by
  induction l with
  | nil => simp [beDecode]
  | cons b t ih =>
    have hb : b.val + 1 ≤ 256 := b.isLt
    calc b.val * 256 ^ t.length + beDecode t
        < b.val * 256 ^ t.length + 256 ^ t.length := by omega
      _ = (b.val + 1) * 256 ^ t.length := by ring
      _ ≤ 256 * 256 ^ t.length := Nat.mul_le_mul_right _ hb
      _ = 256 ^ (t.length + 1) := by ring
      _ = 256 ^ (b :: t).length := by simp

theorem beDecode_beEncode (k : ℕ) : ∀ v, beDecode (beEncode k v) = v % 256 ^ k := by
  induction k with
  | zero => intro v; simp [beEncode, beDecode, Nat.mod_one]
  | succ k ih =>
    intro v
    have hmm : v % 256 ^ k % 256 ^ k = v % 256 ^ k := Nat.mod_mod_of_dvd v dvd_rfl
    calc beDecode (beEncode (k + 1) v)
        = v / 256 ^ k % 256 * 256 ^ (beEncode k (v % 256 ^ k)).length
            + beDecode (beEncode k (v % 256 ^ k)) := rfl
      _ = v / 256 ^ k % 256 * 256 ^ k + v % 256 ^ k := by
          rw [beEncode_length, ih, hmm]
      _ = v % 256 ^ k + 256 ^ k * (v / 256 ^ k % 256) := by ring
      _ = v % (256 ^ k * 256) := (Nat.mod_mul).symm
      _ = v % 256 ^ (k + 1) := by rw [pow_succ]

theorem beEncode_beDecode (l : List Byte) : beEncode l.length (beDecode l) = l := by
  induction l with
  | nil => rfl
  | cons b t ih =>
    have hdec : beDecode t < 256 ^ t.length := beDecode_lt t
    have hpos : 0 < 256 ^ t.length := Nat.pos_pow_of_pos _ (by norm_num)
    have hdiv : (b.val * 256 ^ t.length + beDecode t) / 256 ^ t.length = b.val := by
      rw [mul_comm, Nat.mul_add_div hpos, Nat.div_eq_of_lt hdec, add_zero]
    have hmod : (b.val * 256 ^ t.length + beDecode t) % 256 ^ t.length = beDecode t := by
      rw [mul_comm, Nat.mul_add_mod, Nat.mod_eq_of_lt hdec]
    show (⟨_ / 256 ^ t.length % 256, _⟩ : Byte) :: beEncode t.length _ = b :: t
    rw [show beDecode (b :: t) = b.val * 256 ^ t.length + beDecode t from rfl] at *
    congr 1
    · apply Fin.ext
      show (b.val * 256 ^ t.length + beDecode t) / 256 ^ t.length % 256 = b.val
      rw [hdiv, Nat.mod_eq_of_lt b.isLt]
    · rw [hmod, ih]

/-- Fixed-length byte strings, as `BytesN<N>` in the source. -/
abbrev BytesN (n : ℕ) := {l : List Byte // l.length = n}

/-- A 256-bit unsigned integer, as the `U256` host type. -/
abbrev U256 := {n : ℕ // n < 2 ^ 256}

/-- Serialized size of an `Fp` element (source constant `FP_SERIALIZED_SIZE`). -/
def FP_SERIALIZED_SIZE : ℕ := 32

/-- Serialized size of an `Fp2` element (source constant `FP2_SERIALIZED_SIZE`). -/
def FP2_SERIALIZED_SIZE : ℕ := FP_SERIALIZED_SIZE * 2

/-- Serialized size of a `G1Affine` point, X followed by Y. -/
def G1_SERIALIZED_SIZE : ℕ := FP_SERIALIZED_SIZE * 2

/-- Serialized size of a `G2Affine` point, X(c1 then c0) followed by Y(c1 then c0). -/
def G2_SERIALIZED_SIZE : ℕ := FP2_SERIALIZED_SIZE * 2

/-- A G1 point in affine form, a 64-byte buffer as in the source. -/
structure G1Affine where
  bytes : BytesN G1_SERIALIZED_SIZE
deriving DecidableEq

/-- A G2 point in affine form, a 128-byte buffer as in the source. -/
structure G2Affine where
  bytes : BytesN G2_SERIALIZED_SIZE
deriving DecidableEq

/-- A base-field element, a 32-byte buffer as in the source. -/
structure Fp where
  bytes : BytesN FP_SERIALIZED_SIZE
deriving DecidableEq

/-- A quadratic-extension element, a 64-byte buffer as in the source. -/
structure Fp2 where
  bytes : BytesN FP2_SERIALIZED_SIZE
deriving DecidableEq

/-- A scalar-field element, wrapping a `U256` as in the source (`struct Fr(U256)`). -/
structure Fr where
  u : U256
deriving DecidableEq

/-- Error taxonomy of the spec (structural decode failures, pairing length
mismatch, encoding overflow, inverse-of-zero fault, engine fault). -/
inductive Bn254Error where
  | InvalidLength
  | LengthMismatch
  | Overflow
  | ZeroInverseFault
  | ExecutionFault
deriving DecidableEq

/-- The BN254 scalar-field modulus r. -/
def rVal : ℕ := 21888242871839275222246405745257275088548364400416034343698204186575808495617

/-- The BN254 base-field modulus p. -/
def pVal : ℕ := 21888242871839275222246405745257275088696311157297823662689037894645226208583

theorem rVal_pos : 0 < rVal := by norm_num [rVal]

theorem rVal_lt_u256 : rVal < 2 ^ 256 := by norm_num [rVal]

/-- Fuel-indexed binary modular exponentiation; the fuel bounds the number of
halvings of the exponent. -/
def powModFuel : ℕ → ℕ → ℕ → ℕ → ℕ
  | 0, _, _, m => 1 % m
  | f + 1, b, e, m =>
    if e = 0 then 1 % m
    else
      let h := powModFuel f (b * b % m) (e / 2) m
      if e % 2 = 1 then b * h % m else h

/-- Binary modular exponentiation, `b ^ e` modulo `m`. -/
def powMod (b e m : ℕ) : ℕ := powModFuel (e + 1) b e m

theorem powModFuel_eq : ∀ f b e m, 0 < m → e < 2 ^ f → powModFuel f b e m = b ^ e % m := by
  intro f
  induction f with
  | zero =>
    intro b e m hm he
    have : e = 0 := by omega
    subst this
    simp [powModFuel]
  | succ f ih =>
    intro b e m hm he
    by_cases h0 : e = 0
    · subst h0; simp [powModFuel]
    · have hhalf : e / 2 < 2 ^ f :=
        Nat.div_lt_of_lt_mul (by rw [pow_succ'] at he; exact he)
      have hrec : powModFuel f (b * b % m) (e / 2) m = (b * b % m) ^ (e / 2) % m :=
        ih (b * b % m) (e / 2) m hm hhalf
      have hbb : (b * b % m) ^ (e / 2) % m = b ^ (2 * (e / 2)) % m := by
        rw [← Nat.pow_mod, pow_mul, pow_two]
      rcases Nat.mod_two_eq_zero_or_one e with hpar | hpar
      · have hstep : powModFuel (f + 1) b e m = powModFuel f (b * b % m) (e / 2) m := by
          simp [powModFuel, h0, hpar]
        rw [hstep, hrec, hbb]
        have hexp : 2 * (e / 2) = e := by omega
        rw [hexp]
      · have hstep : powModFuel (f + 1) b e m = b * powModFuel f (b * b % m) (e / 2) m % m := by
          simp [powModFuel, h0, hpar]
        have hdrop : b * (b ^ (2 * (e / 2)) % m) % m = b * b ^ (2 * (e / 2)) % m := by
          conv_rhs => rw [Nat.mul_mod]
          rw [Nat.mul_mod, Nat.mod_mod_of_dvd _ dvd_rfl]
        rw [hstep, hrec, hbb, hdrop, ← pow_succ']
        have hexp : 2 * (e / 2) + 1 = e := by omega
        rw [hexp]

theorem powMod_eq (b e m : ℕ) (hm : 0 < m) : powMod b e m = b ^ e % m := by
  have he : e < 2 ^ (e + 1) := lt_trans (Nat.lt_two_pow e) (Nat.pow_lt_pow_succ (by norm_num))
  exact powModFuel_eq (e + 1) b e m hm he

theorem powMod_lt (b e m : ℕ) (hm : 0 < m) : powMod b e m < m := by
  rw [powMod_eq b e m hm]
  exact Nat.mod_lt _ hm

theorem pow256_32 : (256 : ℕ) ^ 32 = 2 ^ 256 := by norm_num

theorem beDecode32_lt (b : BytesN 32) : beDecode b.1 < 2 ^ 256 := by
  have := beDecode_lt b.1
  rw [b.2, pow256_32] at this
  exact this

/-- Translated from `Fr::from_u256` and `From<U256> for Fr`: the `U256` is stored
unchanged with no modular reduction. -/
def Fr.from_u256 (value : U256) : Fr := ⟨value⟩

/-- Translated from `Fr::to_u256`: returns a copy of the wrapped `U256`. -/
def Fr.to_u256 (x : Fr) : U256 := x.u

/-- Translated from `Fr::from_bytes`: interprets the 32 bytes as a big-endian
`U256` and wraps it, with no modular reduction. -/
def Fr.from_bytes (bytes : BytesN 32) : Fr := ⟨⟨beDecode bytes.1, beDecode32_lt bytes⟩⟩

/-- Translated from `Fr::to_bytes`: serializes the wrapped `U256` as 32
big-endian bytes. -/
def Fr.to_bytes (x : Fr) : BytesN 32 := ⟨beEncode 32 x.u.1, beEncode_length 32 x.u.1⟩

/-- Modelled from the spec: the `from_bytes` constructor generated by
`impl_bytesn_repr` (whose definition is outside the provided source) wraps a
buffer that already has the exact length. -/
def G1Affine.from_bytes (bytes : BytesN G1_SERIALIZED_SIZE) : G1Affine := ⟨bytes⟩

/-- Modelled from the spec: the `to_bytes` accessor generated by
`impl_bytesn_repr` returns the stored buffer unchanged. -/
def G1Affine.to_bytes (p : G1Affine) : BytesN G1_SERIALIZED_SIZE := p.bytes

/-- Modelled from the spec: `impl_bytesn_repr` constructor for `G2Affine`. -/
def G2Affine.from_bytes (bytes : BytesN G2_SERIALIZED_SIZE) : G2Affine := ⟨bytes⟩

/-- Modelled from the spec: `impl_bytesn_repr` accessor for `G2Affine`. -/
def G2Affine.to_bytes (p : G2Affine) : BytesN G2_SERIALIZED_SIZE := p.bytes

/-- Modelled from the spec: `impl_bytesn_repr` constructor for `Fp`. -/
def Fp.from_bytes (bytes : BytesN FP_SERIALIZED_SIZE) : Fp := ⟨bytes⟩

/-- Modelled from the spec: `impl_bytesn_repr` accessor for `Fp`. -/
def Fp.to_bytes (v : Fp) : BytesN FP_SERIALIZED_SIZE := v.bytes

/-- Modelled from the spec: `impl_bytesn_repr` constructor for `Fp2`. -/
def Fp2.from_bytes (bytes : BytesN FP2_SERIALIZED_SIZE) : Fp2 := ⟨bytes⟩

/-- Modelled from the spec: `impl_bytesn_repr` accessor for `Fp2`. -/
def Fp2.to_bytes (v : Fp2) : BytesN FP2_SERIALIZED_SIZE := v.bytes

/-- Modelled from the spec: constructing a `G1Affine` from an arbitrary-length
byte buffer (the `TryFrom<Bytes>` conversion generated by `impl_bytesn_repr`,
whose definition is outside the provided source) fails with `InvalidLength`
unless the buffer is exactly 64 bytes; no other validation is performed. -/
def G1Affine.try_from_bytes (l : List Byte) : Except Bn254Error G1Affine :=
  if h : l.length = G1_SERIALIZED_SIZE then .ok ⟨⟨l, h⟩⟩ else .error .InvalidLength

/-- Modelled from the spec: constructing a `G2Affine` from an arbitrary-length
byte buffer fails with `InvalidLength` unless the buffer is exactly 128 bytes;
no other validation is performed. -/
def G2Affine.try_from_bytes (l : List Byte) : Except Bn254Error G2Affine :=
  if h : l.length = G2_SERIALIZED_SIZE then .ok ⟨⟨l, h⟩⟩ else .error .InvalidLength

/-- Builds an `Fr` from a value already reduced modulo r. -/
def frReduce (n : ℕ) : Fr :=
  ⟨⟨n % rVal, lt_trans (Nat.mod_lt _ rVal_pos) rVal_lt_u256⟩⟩

/-- The additive identity of the scalar field. -/
def frZero : Fr := ⟨⟨0, by norm_num⟩⟩

/-- The multiplicative identity of the scalar field. -/
def frOne : Fr := ⟨⟨1, by norm_num⟩⟩

namespace Bn254

/-- Modelled from the spec: the host scalar addition `bn254_fr_add` behind
`Bn254::fr_add`, modular addition over the scalar field. -/
def fr_add (lhs rhs : Fr) : Fr := frReduce (lhs.u.1 + rhs.u.1)

/-- Modelled from the spec: the host scalar subtraction `bn254_fr_sub` behind
`Bn254::fr_sub`, modular subtraction over the scalar field. -/
def fr_sub (lhs rhs : Fr) : Fr :=
  frReduce (lhs.u.1 % rVal + (rVal - rhs.u.1 % rVal))

/-- Modelled from the spec: the host scalar multiplication `bn254_fr_mul`
behind `Bn254::fr_mul`, modular multiplication over the scalar field. -/
def fr_mul (lhs rhs : Fr) : Fr := frReduce (lhs.u.1 * rhs.u.1)

/-- Modelled from the spec: the host modular exponentiation `bn254_fr_pow`
behind `Fr::pow`, well defined for every exponent including zero. -/
def fr_pow (base : Fr) (rhs : ℕ) : Fr := frReduce (powMod base.u.1 rhs rVal)

/-- Modelled from the spec: the host modular inverse `bn254_fr_inv` behind
`Fr::inv`; a zero input is a non-recoverable `ZeroInverseFault`, a nonzero
input yields the modular multiplicative inverse (for prime r, by Fermat,
the (r-2)-th power). -/
def fr_inv (value : Fr) : Except Bn254Error Fr :=
  if value.u.1 % rVal = 0 then .error .ZeroInverseFault
  else .ok (frReduce (powMod (value.u.1 % rVal) (rVal - 2) rVal))

/-- Modelled from the spec: `Bn254::pairing_check` requires the two sequences
to have equal length (`LengthMismatch` otherwise) and decides whether the
product over i of e(vp1[i], vp2[i]) is the target-group identity; the pairing
map itself is the external Pairing Engine, abstracted as the parameter `e`
into an arbitrary monoid with decidable equality. -/
def pairing_check {T : Type} [Monoid T] [DecidableEq T]
    (e : G1Affine → G2Affine → T) (vp1 : List G1Affine) (vp2 : List G2Affine) :
    Except Bn254Error Bool :=
  if vp1.length = vp2.length then
    .ok (decide ((List.zipWith e vp1 vp2).prod = 1))
  else .error .LengthMismatch

end Bn254

theorem castPow_eq_one_iff (p g N : ℕ) (hp : 1 < p) :
    ((g : ZMod p) ^ N = 1) ↔ powMod g N p = 1 := by
  haveI : NeZero p := ⟨by omega⟩
  rw [powMod_eq g N p (by omega)]
  have hcast : ((g : ZMod p)) ^ N = ((g ^ N % p : ℕ) : ZMod p) := by
    rw [ZMod.natCast_mod, Nat.cast_pow]
  rw [hcast]
  constructor
  · intro h
    have h2 : ((g ^ N % p : ℕ) : ZMod p) = ((1 : ℕ) : ZMod p) := by rw [h]; simp
    have h3 := (ZMod.natCast_eq_natCast_iff' _ _ _).mp h2
    rwa [Nat.mod_mod_of_dvd _ dvd_rfl, Nat.mod_eq_of_lt hp] at h3
  · intro h
    rw [h]
    simp

/-- Product of a list of prime powers, used to state factorizations. -/
def prodPow (l : List (ℕ × ℕ)) : ℕ := (l.map fun pe => pe.1 ^ pe.2).prod

theorem prime_mem_of_dvd_prodPow :
    ∀ (l : List (ℕ × ℕ)), (∀ pe ∈ l, Nat.Prime pe.1) →
      ∀ q : ℕ, q.Prime → q ∣ prodPow l → q ∈ l.map Prod.fst := by
  intro l
  induction l with
  | nil =>
    intro _ q hq hdvd
    simp [prodPow] at hdvd
    exact absurd hdvd hq.ne_one
  | cons pe t ih =>
    intro hl q hq hdvd
    have hsplit : prodPow (pe :: t) = pe.1 ^ pe.2 * prodPow t := by simp [prodPow]
    rw [hsplit] at hdvd
    rcases (Nat.Prime.dvd_mul hq).mp hdvd with h | h
    · have hdvd1 : q ∣ pe.1 := hq.dvd_of_dvd_pow h
      have hpe := hl pe (List.mem_cons_self ..)
      have heq : q = pe.1 := (Nat.prime_dvd_prime_iff_eq hq hpe).mp hdvd1
      simp [heq]
    · have hmem := ih (fun x hx => hl x (List.mem_cons_of_mem _ hx)) q hq h
      simp only [List.map_cons, List.mem_cons]
      exact Or.inr hmem

/-- Pocklington-Lehmer / Lucas primality from a full factorization of p - 1
and a primitive-root witness, with all powers evaluated through `powMod`. -/
theorem lucasCert (p g : ℕ) (l : List (ℕ × ℕ)) (hp : 1 < p)
    (hl : ∀ pe ∈ l, Nat.Prime pe.1)
    (hprod : prodPow l = p - 1)
    (hg : powMod g (p - 1) p = 1)
    (hd : ∀ q ∈ l.map Prod.fst, powMod g ((p - 1) / q) p ≠ 1) : Nat.Prime p := by
  apply lucas_primality p (g : ZMod p)
  · exact (castPow_eq_one_iff p g (p - 1) hp).mpr hg
  · intro q hq hdvd hone
    have hmem : q ∈ l.map Prod.fst := by
      refine prime_mem_of_dvd_prodPow l hl q hq ?_
      rw [hprod]
      exact hdvd
    exact hd q hmem ((castPow_eq_one_iff p g _ hp).mp hone)

theorem prime_12048837557 : Nat.Prime 12048837557 :=
  lucasCert 12048837557 2 [(2, 2), (7, 2), (661, 1), (93001, 1)] (by norm_num)
    (by intro pe hpe; fin_cases hpe <;> norm_num)
    (by decide) (by decide) (by decide)

theorem prime_5156902474397 : Nat.Prime 5156902474397 :=
  lucasCert 5156902474397 2 [(2, 2), (107, 1), (12048837557, 1)] (by norm_num)
    (by
      intro pe hpe
      fin_cases hpe
      · norm_num
      · norm_num
      · exact prime_12048837557)
    (by decide) (by decide) (by decide)

theorem prime_1670836401704629 : Nat.Prime 1670836401704629 :=
  lucasCert 1670836401704629 2 [(2, 2), (3, 4), (5156902474397, 1)] (by norm_num)
    (by
      intro pe hpe
      fin_cases hpe
      · norm_num
      · norm_num
      · exact prime_5156902474397)
    (by decide) (by decide) (by decide)

theorem prime_639533339 : Nat.Prime 639533339 :=
  lucasCert 639533339 2 [(2, 1), (229, 1), (853, 1), (1637, 1)] (by norm_num)
    (by intro pe hpe; fin_cases hpe <;> norm_num)
    (by decide) (by decide) (by decide)

theorem prime_65865678001877903 : Nat.Prime 65865678001877903 :=
  lucasCert 65865678001877903 5 [(2, 1), (83, 1), (379, 1), (1637, 1), (639533339, 1)]
    (by norm_num)
    (by
      intro pe hpe
      fin_cases hpe
      · norm_num
      · norm_num
      · norm_num
      · norm_num
      · exact prime_639533339)
    (by decide) (by decide) (by decide)

theorem prime_13818364434197438864469338081 : Nat.Prime 13818364434197438864469338081 :=
  lucasCert 13818364434197438864469338081 3
    [(2, 5), (5, 1), (823, 1), (1593227, 1), (65865678001877903, 1)]
    (by norm_num)
    (by
      intro pe hpe
      fin_cases hpe
      · norm_num
      · norm_num
      · norm_num
      · norm_num
      · exact prime_65865678001877903)
    (by decide) (by decide) (by decide)

theorem prime_405928799 : Nat.Prime 405928799 :=
  lucasCert 405928799 22 [(2, 1), (11, 1), (3691, 1), (4999, 1)] (by norm_num)
    (by intro pe hpe; fin_cases hpe <;> norm_num)
    (by decide) (by decide) (by decide)

/-- The BN254 scalar-field modulus r is prime. -/
theorem rVal_prime : Nat.Prime rVal :=
  lucasCert rVal 5
    [(2, 28), (3, 2), (13, 1), (29, 1), (983, 1), (11003, 1), (237073, 1),
     (405928799, 1), (1670836401704629, 1), (13818364434197438864469338081, 1)]
    (by norm_num [rVal])
    (by
      intro pe hpe
      fin_cases hpe
      · norm_num
      · norm_num
      · norm_num
      · norm_num
      · norm_num
      · norm_num
      · norm_num
      · exact prime_405928799
      · exact prime_1670836401704629
      · exact prime_13818364434197438864469338081)
    (by decide) (by decide) (by decide)

/-- Fermat inverse over the scalar field: for nonzero a below r, multiplying
by the (r-2)-th power of a yields 1 modulo r. -/
theorem fermat_inverse (a : ℕ) (h0 : 0 < a) (hr : a < rVal) :
    a * powMod a (rVal - 2) rVal % rVal = 1 := by
  haveI : Fact (Nat.Prime rVal) := ⟨rVal_prime⟩
  haveI : NeZero rVal := ⟨by have := rVal_pos; omega⟩
  have hrr : 1 < rVal := rVal_prime.one_lt
  have hne : ((a : ZMod rVal)) ≠ 0 := by
    rw [Ne, ZMod.natCast_zmod_eq_zero_iff_dvd]
    intro hdvd
    exact absurd (Nat.le_of_dvd h0 hdvd) (by omega)
  have hferm : ((a : ZMod rVal)) ^ (rVal - 1) = 1 := ZMod.pow_card_sub_one_eq_one hne
  have hsucc : rVal - 2 + 1 = rVal - 1 := by omega
  have hmul : ((a * powMod a (rVal - 2) rVal : ℕ) : ZMod rVal) = ((1 : ℕ) : ZMod rVal) := by
    rw [powMod_eq a (rVal - 2) rVal (by omega)]
    push_cast
    rw [ZMod.natCast_mod, Nat.cast_pow, ← pow_succ', hsucc, hferm]
  have := (ZMod.natCast_eq_natCast_iff' _ _ _).mp hmul
  rwa [Nat.mod_eq_of_lt hrr] at this

/-- X coordinate of a serialized G1 point (first 32 bytes, big-endian). -/
def g1X (pt : G1Affine) : ℕ := beDecode (pt.bytes.1.take 32)

/-- Y coordinate of a serialized G1 point (last 32 bytes, big-endian). -/
def g1Y (pt : G1Affine) : ℕ := beDecode (pt.bytes.1.drop 32)

/-- The affine BN254 curve equation y^2 = x^3 + 3 over Fp, with both
coordinates in canonical range. -/
def G1OnCurve (x y : ℕ) : Prop :=
  x < pVal ∧ y < pVal ∧ y * y % pVal = (x * x * x + 3) % pVal

instance (x y : ℕ) : Decidable (G1OnCurve x y) := by
  unfold G1OnCurve; infer_instance

namespace Bn254

/-- Modelled from the spec: the host subgroup check `bn254_check_g1_is_in_subgroup`
behind `Bn254::g1_is_in_subgroup`.  BN254 G1 has cofactor one, so membership in
the prime-order subgroup is exactly the on-curve condition, with the all-zero
encoding denoting the point at infinity; the check is a total predicate that
returns false on any other input rather than failing. -/
def g1_is_in_subgroup (p : G1Affine) : Bool :=
  decide (g1X p = 0 ∧ g1Y p = 0) || decide (G1OnCurve (g1X p) (g1Y p))

end Bn254

/-- An element of Fp2, c0 + c1*u with u^2 = -1, both components reduced mod p. -/
abbrev Fp2E := ℕ × ℕ

def fpAdd (a b : ℕ) : ℕ := (a + b) % pVal

def fpSub (a b : ℕ) : ℕ := (a + (pVal - b % pVal)) % pVal

def fpMul (a b : ℕ) : ℕ := a * b % pVal

def fpInv (a : ℕ) : ℕ := powMod a (pVal - 2) pVal

def fp2Add (a b : Fp2E) : Fp2E := (fpAdd a.1 b.1, fpAdd a.2 b.2)

def fp2Sub (a b : Fp2E) : Fp2E := (fpSub a.1 b.1, fpSub a.2 b.2)

def fp2Mul (a b : Fp2E) : Fp2E :=
  (fpSub (fpMul a.1 b.1) (fpMul a.2 b.2), fpAdd (fpMul a.1 b.2) (fpMul a.2 b.1))

def fp2Inv (a : Fp2E) : Fp2E :=
  let d := fpInv (fpAdd (fpMul a.1 a.1) (fpMul a.2 a.2))
  (fpMul a.1 d, fpMul (fpSub 0 a.2) d)

/-- The constant b' = 3/(9+u) of the BN254 twist curve y^2 = x^3 + b' over Fp2. -/
def twistB : Fp2E :=
  (19485874751759354771024239261021720505790618469301721065564631296452457478373,
   266929791119991161246907387137283842545076965332900288569378510910307636690)

/-- A point of the twist curve in affine coordinates, `none` denoting the
point at infinity. -/
abbrev G2Point := Option (Fp2E × Fp2E)

/-- Doubling of an affine twist point. -/
def g2Dbl (P : Fp2E × Fp2E) : G2Point :=
  if P.2 = (0, 0) then none
  else
    let l := fp2Mul (fp2Mul (3, 0) (fp2Mul P.1 P.1)) (fp2Inv (fp2Mul (2, 0) P.2))
    let x := fp2Sub (fp2Mul l l) (fp2Mul (2, 0) P.1)
    some (x, fp2Sub (fp2Mul l (fp2Sub P.1 x)) P.2)

def g2Double : G2Point → G2Point
  | none => none
  | some P => g2Dbl P

/-- Addition of affine twist points. -/
def g2AddPt : G2Point → G2Point → G2Point
  | none, Q => Q
  | some P, none => some P
  | some P, some Q =>
    if P.1 = Q.1 then
      if P.2 = Q.2 then g2Dbl P else none
    else
      let l := fp2Mul (fp2Sub Q.2 P.2) (fp2Inv (fp2Sub Q.1 P.1))
      let x := fp2Sub (fp2Sub (fp2Mul l l) P.1) Q.1
      some (x, fp2Sub (fp2Mul l (fp2Sub P.1 x)) P.2)

/-- Fuel-indexed double-and-add scalar multiplication on the twist. -/
def g2SmulFuel : ℕ → ℕ → G2Point → G2Point
  | 0, _, _ => none
  | f + 1, n, P =>
    if n = 0 then none
    else
      let h := g2SmulFuel f (n / 2) (g2Double P)
      if n % 2 = 1 then g2AddPt P h else h

/-- Scalar multiplication on the twist. -/
def g2Smul (n : ℕ) (P : G2Point) : G2Point := g2SmulFuel (n + 1) n P

/-- Coordinates of a serialized G2 point; the layout is X(c1 then c0)
followed by Y(c1 then c0), each component 32 big-endian bytes. -/
def g2Xc1 (pt : G2Affine) : ℕ := beDecode (pt.bytes.1.take 32)

def g2Xc0 (pt : G2Affine) : ℕ := beDecode ((pt.bytes.1.drop 32).take 32)

def g2Yc1 (pt : G2Affine) : ℕ := beDecode ((pt.bytes.1.drop 64).take 32)

def g2Yc0 (pt : G2Affine) : ℕ := beDecode (pt.bytes.1.drop 96)

def g2XE (pt : G2Affine) : Fp2E := (g2Xc0 pt, g2Xc1 pt)

def g2YE (pt : G2Affine) : Fp2E := (g2Yc0 pt, g2Yc1 pt)

/-- The twist curve equation Y^2 = X^3 + b' over Fp2 with all components in
canonical range. -/
def G2OnTwist (X Y : Fp2E) : Prop :=
  X.1 < pVal ∧ X.2 < pVal ∧ Y.1 < pVal ∧ Y.2 < pVal ∧
    fp2Mul Y Y = fp2Add (fp2Mul X (fp2Mul X X)) twistB

instance (X Y : Fp2E) : Decidable (G2OnTwist X Y) := by
  unfold G2OnTwist; infer_instance

/-- Membership of a twist point in the order-r subgroup: multiplication by r
gives the point at infinity. -/
def G2InRTorsion (X Y : Fp2E) : Prop := g2Smul rVal (some (X, Y)) = none

instance (X Y : Fp2E) : Decidable (G2InRTorsion X Y) := by
  unfold G2InRTorsion; infer_instance

namespace Bn254

/-- Modelled from the spec: the host subgroup check `bn254_check_g2_is_in_subgroup`
behind `Bn254::g2_is_in_subgroup`: a total predicate that holds exactly for the
point at infinity and for points of the twist curve lying in the order-r
subgroup, and returns false on any other input rather than failing. -/
def g2_is_in_subgroup (p : G2Affine) : Bool :=
  decide (g2XE p = (0, 0) ∧ g2YE p = (0, 0)) ||
    (decide (G2OnTwist (g2XE p) (g2YE p)) && decide (G2InRTorsion (g2XE p) (g2YE p)))

end Bn254

/-- A structurally well-formed G1 encoding whose bytes are algebraically
garbage: all 64 bytes equal to one. -/
def g1Garbage : G1Affine :=
  ⟨⟨List.replicate 64 (1 : Byte), by simp [G1_SERIALIZED_SIZE, FP_SERIALIZED_SIZE]⟩⟩

/-- A structurally well-formed G2 encoding whose bytes are algebraically
garbage: all 128 bytes equal to one. -/
def g2Garbage : G2Affine :=
  ⟨⟨List.replicate 128 (1 : Byte),
    by simp [G2_SERIALIZED_SIZE, FP2_SERIALIZED_SIZE, FP_SERIALIZED_SIZE]⟩⟩

/-- The all-zero G1 encoding. -/
def g1Sample : G1Affine :=
  ⟨⟨List.replicate 64 (0 : Byte), by simp [G1_SERIALIZED_SIZE, FP_SERIALIZED_SIZE]⟩⟩

/-- The all-zero G2 encoding. -/
def g2Sample : G2Affine :=
  ⟨⟨List.replicate 128 (0 : Byte),
    by simp [G2_SERIALIZED_SIZE, FP2_SERIALIZED_SIZE, FP_SERIALIZED_SIZE]⟩⟩

/-- The scalar two. -/
def frTwo : Fr := ⟨⟨2, by norm_num⟩⟩

/-- The scalar-field modulus itself as a `U256` value. -/
def u256r : U256 := ⟨rVal, rVal_lt_u256⟩

theorem fr_from_to_bytes (b : BytesN 32) : (Fr.from_bytes b).to_bytes = b := by
  obtain ⟨l, hl⟩ := b
  apply Subtype.ext
  show beEncode 32 (beDecode l) = l
  rw [← hl]
  exact beEncode_beDecode l

theorem fr_to_from_bytes (x : Fr) : Fr.from_bytes (Fr.to_bytes x) = x := by
  obtain ⟨⟨v, hv⟩⟩ := x
  simp only [Fr.from_bytes, Fr.to_bytes, Fr.mk.injEq, Subtype.mk.injEq]
  rw [beDecode_beEncode, pow256_32]
  exact Nat.mod_eq_of_lt hv

/-- C1: for the two empty input sequences, `pairing_check` returns `true`:
the empty product of pairings equals the target-group identity, whatever the
pairing map is. -/
theorem pairing_check_empty_true {T : Type} [Monoid T] [DecidableEq T]
    (e : G1Affine → G2Affine → T) :
    Bn254.pairing_check e [] [] = .ok true := by
  simp [Bn254.pairing_check]

/-- C2: `pairing_check` fails with `LengthMismatch` whenever the two input
sequences have different lengths, and returns a boolean whenever the lengths
are equal. -/
theorem pairing_check_length_mismatch {T : Type} [Monoid T] [DecidableEq T]
    (e : G1Affine → G2Affine → T) (vp1 : List G1Affine) (vp2 : List G2Affine) :
    (vp1.length ≠ vp2.length →
      Bn254.pairing_check e vp1 vp2 = .error .LengthMismatch) ∧
    (vp1.length = vp2.length → ∃ b, Bn254.pairing_check e vp1 vp2 = .ok b) := by
  constructor
  · intro h
    simp [Bn254.pairing_check, h]
  · intro h
    refine ⟨decide ((List.zipWith e vp1 vp2).prod = 1), ?_⟩
    simp [Bn254.pairing_check, h]

/-- C2 witness: with sequences of length 2 and 3 the check fails with
`LengthMismatch`, and with two sequences of length 2 it returns a boolean. -/
theorem pairing_check_length_mismatch_witness :
    Bn254.pairing_check (fun _ _ => (1 : ℕ)) [g1Sample, g1Sample]
        [g2Sample, g2Sample, g2Sample] = .error .LengthMismatch ∧
    ∃ b, Bn254.pairing_check (fun _ _ => (1 : ℕ)) [g1Sample, g1Sample]
        [g2Sample, g2Sample] = .ok b :=
  ⟨(pairing_check_length_mismatch (fun _ _ => (1 : ℕ)) [g1Sample, g1Sample]
      [g2Sample, g2Sample, g2Sample]).1 (by decide),
   (pairing_check_length_mismatch (fun _ _ => (1 : ℕ)) [g1Sample, g1Sample]
      [g2Sample, g2Sample]).2 (by decide)⟩

/-- C3: `fr_inv` on the additive identity of Fr is the non-recoverable
`ZeroInverseFault` and returns no value, and on every nonzero scalar within
the field it returns the modular multiplicative inverse. -/
theorem fr_inv_zero_faults_nonzero_inverts :
    Bn254.fr_inv frZero = .error .ZeroInverseFault ∧
    ∀ x : Fr, 0 < x.u.1 → x.u.1 < rVal →
      ∃ y : Fr, Bn254.fr_inv x = .ok y ∧ x.u.1 * y.u.1 % rVal = 1 := by
  constructor
  · rfl
  · intro x h0 hr
    have hmod : x.u.1 % rVal = x.u.1 := Nat.mod_eq_of_lt hr
    refine ⟨frReduce (powMod (x.u.1 % rVal) (rVal - 2) rVal), ?_, ?_⟩
    · unfold Bn254.fr_inv
      rw [if_neg (by omega)]
    · show x.u.1 * (powMod (x.u.1 % rVal) (rVal - 2) rVal % rVal) % rVal = 1
      rw [hmod, Nat.mod_eq_of_lt (powMod_lt _ _ _ rVal_pos)]
      exact fermat_inverse x.u.1 h0 hr

/-- C3 witness: the inverse of the scalar two exists and multiplies back to
one modulo r. -/
theorem fr_inv_zero_faults_nonzero_inverts_witness :
    ∃ y : Fr, Bn254.fr_inv frTwo = .ok y ∧ frTwo.u.1 * y.u.1 % rVal = 1 :=
  fr_inv_zero_faults_nonzero_inverts.2 frTwo (by decide) (by decide)

/-- C4: the subgroup checks are total boolean predicates: `g1_is_in_subgroup`
holds exactly on the point at infinity and the points of the BN254 curve (its
G1 cofactor is one), `g2_is_in_subgroup` holds exactly on the point at
infinity and the points of the twist curve lying in the order-r subgroup, and
both return `false`, rather than failing, on garbage such as the all-ones
byte patterns. -/
theorem subgroup_checks_total_never_fail :
    (∀ p : G1Affine, Bn254.g1_is_in_subgroup p = true ↔
      ((g1X p = 0 ∧ g1Y p = 0) ∨ G1OnCurve (g1X p) (g1Y p))) ∧
    (∀ p : G2Affine, Bn254.g2_is_in_subgroup p = true ↔
      ((g2XE p = (0, 0) ∧ g2YE p = (0, 0)) ∨
        (G2OnTwist (g2XE p) (g2YE p) ∧ G2InRTorsion (g2XE p) (g2YE p)))) ∧
    Bn254.g1_is_in_subgroup g1Garbage = false ∧
    Bn254.g2_is_in_subgroup g2Garbage = false := by
  refine ⟨?_, ?_, by decide, by decide⟩
  · intro p
    simp [Bn254.g1_is_in_subgroup]
  · intro p
    simp [Bn254.g2_is_in_subgroup]

/-- C5: constructing a `G1Affine` (resp. `G2Affine`) from a byte buffer
succeeds if and only if the buffer is exactly 64 (resp. 128) bytes, fails with
`InvalidLength` otherwise, and performs no validation beyond the length. -/
theorem construction_checks_length_only :
    (∀ l : List Byte, (∃ pt, G1Affine.try_from_bytes l = .ok pt) ↔ l.length = 64) ∧
    (∀ l : List Byte, l.length ≠ 64 →
      G1Affine.try_from_bytes l = .error .InvalidLength) ∧
    (∀ l : List Byte, (∃ pt, G2Affine.try_from_bytes l = .ok pt) ↔ l.length = 128) ∧
    (∀ l : List Byte, l.length ≠ 128 →
      G2Affine.try_from_bytes l = .error .InvalidLength) := by
  refine ⟨fun l => ?_, fun l h => ?_, fun l => ?_, fun l h => ?_⟩ <;>
    by_cases hl : l.length = 64 <;>
      by_cases hl2 : l.length = 128 <;>
        simp_all [G1Affine.try_from_bytes, G2Affine.try_from_bytes,
          G1_SERIALIZED_SIZE, G2_SERIALIZED_SIZE, FP_SERIALIZED_SIZE,
          FP2_SERIALIZED_SIZE]

/-- C5 witness: a 63-byte buffer is rejected with `InvalidLength`, a 64-byte
buffer of arbitrary bytes is accepted. -/
theorem construction_checks_length_only_witness :
    G1Affine.try_from_bytes (List.replicate 63 (0 : Byte)) = .error .InvalidLength ∧
    (∃ pt, G1Affine.try_from_bytes (List.replicate 64 (1 : Byte)) = .ok pt) ∧
    G2Affine.try_from_bytes (List.replicate 127 (0 : Byte)) = .error .InvalidLength ∧
    (∃ pt, G2Affine.try_from_bytes (List.replicate 128 (1 : Byte)) = .ok pt) :=
  ⟨construction_checks_length_only.2.1 _ (by decide),
   (construction_checks_length_only.1 _).mpr (by decide),
   construction_checks_length_only.2.2.2 _ (by decide),
   (construction_checks_length_only.2.2.1 _).mpr (by decide)⟩

/-- C6: encoding and decoding round-trip exactly for every entity: decoding a
correct-length buffer and re-encoding reproduces the buffer, and encoding an
entity and decoding reproduces the entity. -/
theorem encode_decode_roundtrip :
    (∀ b : BytesN 32, (Fr.from_bytes b).to_bytes = b) ∧
    (∀ x : Fr, Fr.from_bytes (Fr.to_bytes x) = x) ∧
    (∀ b : BytesN FP_SERIALIZED_SIZE, (Fp.from_bytes b).to_bytes = b) ∧
    (∀ v : Fp, Fp.from_bytes (Fp.to_bytes v) = v) ∧
    (∀ b : BytesN FP2_SERIALIZED_SIZE, (Fp2.from_bytes b).to_bytes = b) ∧
    (∀ v : Fp2, Fp2.from_bytes (Fp2.to_bytes v) = v) ∧
    (∀ b : BytesN G1_SERIALIZED_SIZE, (G1Affine.from_bytes b).to_bytes = b) ∧
    (∀ pt : G1Affine, G1Affine.from_bytes (G1Affine.to_bytes pt) = pt) ∧
    (∀ b : BytesN G2_SERIALIZED_SIZE, (G2Affine.from_bytes b).to_bytes = b) ∧
    (∀ pt : G2Affine, G2Affine.from_bytes (G2Affine.to_bytes pt) = pt) :=
  ⟨fr_from_to_bytes, fr_to_from_bytes, fun _ => rfl, fun _ => rfl, fun _ => rfl,
   fun _ => rfl, fun _ => rfl, fun _ => rfl, fun _ => rfl, fun _ => rfl⟩

/-- C7: `fr_pow` with exponent zero returns the multiplicative identity of the
scalar field for every base, including the zero scalar. -/
theorem fr_pow_zero_is_one : ∀ x : Fr, Bn254.fr_pow x 0 = frOne := by
  intro x
  have h1 : powMod x.u.1 0 rVal = 1 % rVal := rfl
  unfold Bn254.fr_pow
  rw [h1]
  unfold frReduce frOne
  simp only [Fr.mk.injEq, Subtype.mk.injEq]
  norm_num [rVal]

/-- C8 counterexample: converting the 256-bit integer r itself into `Fr` via
`from_u256` stores the value unreduced, so the resulting `Fr` does not satisfy
the claimed invariant value < r. -/
theorem fr_invariant_counterexample : ¬ ((Fr.from_u256 u256r).u.1 < rVal) := by
  simp [Fr.from_u256, u256r]

/-- C8 amended: the results of the scalar-field arithmetic operations
(`fr_add`, `fr_sub`, `fr_mul`, `fr_pow`, `fr_inv`) are always strictly below
r, but constructing an `Fr` by `from_u256` or `from_bytes` stores the value
unreduced (only value < 2^256 is guaranteed, as for every `Fr`), so the
invariant value < r does not hold for every way of constructing an `Fr`. -/
theorem fr_ops_reduce_but_conversions_do_not :
    (∀ x y : Fr, (Bn254.fr_add x y).u.1 < rVal) ∧
    (∀ x y : Fr, (Bn254.fr_sub x y).u.1 < rVal) ∧
    (∀ x y : Fr, (Bn254.fr_mul x y).u.1 < rVal) ∧
    (∀ (x : Fr) (e : ℕ), (Bn254.fr_pow x e).u.1 < rVal) ∧
    (∀ x y : Fr, Bn254.fr_inv x = .ok y → y.u.1 < rVal) ∧
    (∀ v : U256, (Fr.from_u256 v).u = v) ∧
    (∀ b : BytesN 32, (Fr.from_bytes b).u.1 = beDecode b.1) ∧
    (∀ x : Fr, x.u.1 < 2 ^ 256) := by
  have hred : ∀ n : ℕ, (frReduce n).u.1 < rVal := fun n => Nat.mod_lt _ rVal_pos
  refine ⟨fun x y => hred _, fun x y => hred _, fun x y => hred _, fun x e => hred _,
    ?_, fun v => rfl, fun b => rfl, fun x => x.u.2⟩
  intro x y h
  unfold Bn254.fr_inv at h
  split at h
  · exact absurd h (fun hh => Except.noConfusion hh)
  · have hy : y = frReduce (powMod (x.u.1 % rVal) (rVal - 2) rVal) := (Except.ok.inj h).symm
    rw [hy]
    exact hred _

/-- C8 amended witness: the inverse of the scalar two is strictly below r. -/
theorem fr_ops_reduce_but_conversions_do_not_witness :
    (frReduce (powMod (frTwo.u.1 % rVal) (rVal - 2) rVal)).u.1 < rVal :=
  fr_ops_reduce_but_conversions_do_not.2.2.2.2.1 frTwo _ rfl

/-- C9: no `Fr` value can exceed 2^256 - 1 (it wraps a 256-bit integer, so the
`Overflow` branch of `encode` cannot arise), and `to_bytes` always produces
exactly 32 big-endian bytes that decode back to the stored value, that is, the
left-zero-padded big-endian encoding. -/
theorem fr_to_bytes_exact_width :
    (∀ x : Fr, ¬ (2 ^ 256 - 1 < x.u.1)) ∧
    (∀ x : Fr, (Fr.to_bytes x).1.length = 32 ∧ beDecode (Fr.to_bytes x).1 = x.u.1) := by
  constructor
  · intro x
    have := x.u.2
    omega
  · intro x
    refine ⟨(Fr.to_bytes x).2, ?_⟩
    show beDecode (beEncode 32 x.u.1) = x.u.1
    rw [beDecode_beEncode, pow256_32]
    exact Nat.mod_eq_of_lt x.u.2

/-- C10: conversion between `Fr` and 256-bit integers or 32-byte buffers is
the identity, with no modular reduction anywhere: `from_u256` then `to_u256`
gives back the input for every 256-bit integer including those at or above r,
and `from_bytes` then `to_bytes` gives back every 32-byte buffer. -/
theorem fr_conversions_identity :
    (∀ v : U256, (Fr.from_u256 v).to_u256 = v) ∧
    (∀ b : BytesN 32, (Fr.from_bytes b).to_bytes = b) :=
  ⟨fun _ => rfl, fr_from_to_bytes⟩

end BN254
